import Mathlib

/-!
Shallow embedding of the content schema & validation engine of a portfolio
backend (`backend/schemas.py`, `backend/admin.py`).  Python strings are
modelled as `List Char` over the ASCII fragment actually used by the data;
Python `int` is `Int`; `datetime.date` is a record of year/month/day with a
validity predicate.  Fallible validators return `Option String`, mirroring
marshmallow's raise-on-error semantics inside a `validates_schema` hook.
-/

namespace Portfolio

/-- ASCII whitespace as recognised by Python `str.strip()` and regex `\s`. -/
def isPySpace (c : Char) : Bool :=
  c == ' ' || c == '\t' || c == '\n' || c == '\r' || c == '\x0b' || c == '\x0c'

/-- Python `str.strip()` on the ASCII fragment: drop whitespace at both ends. -/
def pyStrip (l : List Char) : List Char :=
  ((l.dropWhile isPySpace).reverse.dropWhile isPySpace).reverse

/-- Python `str.split(sep)` for a one-character separator: splits on every
occurrence and keeps empty pieces, so the result is always non-empty. -/
def pySplit (sep : Char) : List Char → List (List Char)
  | [] => [[]]
  | c :: rest =>
    if c == sep then [] :: pySplit sep rest
    else
      match pySplit sep rest with
      | [] => [[c]]
      | h :: t => (c :: h) :: t

/-- Python `str.lower()` on the ASCII fragment. -/
def pyLower (l : List Char) : List Char := l.map Char.toLower

/-- Python `str.capitalize()` on the ASCII fragment: first character
uppercased, the rest lowercased. -/
def pyCapitalize : List Char → List Char
  | [] => []
  | c :: cs => c.toUpper :: cs.map Char.toLower

/-- `snake_to_camel` from `backend/schemas.py`: split on `_`, keep the first
component, capitalize and concatenate the remaining components. -/
def snake_to_camel (name : List Char) : List Char :=
  match pySplit '_' name with
  | [] => []
  | h :: t => h ++ (t.map pyCapitalize).flatten

/-- First substitution pass of `camel_to_snake`:
`re.sub("(.)([A-Z][a-z]+)", r"\1_\2", name)` — the leftmost-match,
non-overlapping scan of Python `re.sub`.  A match is any character other
than newline, followed by an uppercase letter, followed by a maximal
non-empty run of lowercase letters; the replacement inserts `_` between
the leading character and the uppercase letter. -/
def sub1 : List Char → List Char
  | [] => []
  | [c] => [c]
  | c :: d :: rest =>
    if c != '\n' && d.isUpper && (match rest with | e :: _ => e.isLower | [] => false) then
      c :: '_' :: d :: (rest.takeWhile Char.isLower ++ sub1 (rest.dropWhile Char.isLower))
    else
      c :: sub1 (d :: rest)
  termination_by l => l.length
  decreasing_by
    · simp only [List.length_cons]
      have := (List.dropWhile_sublist (l := rest) (p := Char.isLower)).length_le
      omega
    · simp only [List.length_cons]
      omega

/-- Second substitution pass of `camel_to_snake`:
`re.sub("([a-z0-9])([A-Z])", r"\1_\2", s1)`. -/
def sub2 : List Char → List Char
  | [] => []
  | [c] => [c]
  | c :: d :: rest =>
    if (c.isLower || c.isDigit) && d.isUpper then
      c :: '_' :: d :: sub2 rest
    else
      c :: sub2 (d :: rest)

/-- `camel_to_snake` from `backend/schemas.py`: the two regex substitution
passes followed by `.lower()`. -/
def camel_to_snake (name : List Char) : List Char :=
  pyLower (sub2 (sub1 name))

/-! ### The identifier vocabulary of the field transforms

An internal identifier is a non-empty sequence of lowercase words joined by
single underscores (`short_desc`, `order_index`, `id`, …). -/

/-- A vocabulary word: non-empty and all ASCII lowercase. -/
def LowerWord (w : List Char) : Prop :=
  w ≠ [] ∧ ∀ c ∈ w, c.isLower = true

instance (w : List Char) : Decidable (LowerWord w) := by
  unfold LowerWord
  infer_instance

/-- The underscore-joined identifier built from a word sequence. -/
def snakeIdent : List (List Char) → List Char
  | [] => []
  | [w] => w
  | w :: v :: rest => w ++ '_' :: snakeIdent (v :: rest)

/-- The camelCase identifier built from a word sequence: first word verbatim,
every later word capitalized. -/
def camelIdent : List (List Char) → List Char
  | [] => []
  | w :: rest => w ++ (rest.map pyCapitalize).flatten

/-- The shape `sub1` leaves the trailing blocks in: an underscore lands
before the first block of each consecutive pair. -/
def altBlocks : List (List Char) → List Char
  | [] => []
  | [v] => pyCapitalize v
  | v :: w :: rest => pyCapitalize v ++ '_' :: pyCapitalize w ++ altBlocks rest

/-- The shape `sub2` produces: an underscore before every block. -/
def underscoreBlocks : List (List Char) → List Char
  | [] => []
  | v :: rest => '_' :: pyCapitalize v ++ underscoreBlocks rest

/-! ### Slug generation (`ProjectAdmin.generate_slug`, `backend/admin.py`) -/

/-- Python regex `\w` on the ASCII fragment: letters, digits, underscore. -/
def isWordChar (c : Char) : Bool :=
  c.isAlpha || c.isDigit || c == '_'

/-- A character kept by `re.sub(r"[^\w\s-]", "", slug)`. -/
def keepSlugChar (c : Char) : Bool :=
  isWordChar c || isPySpace c || c == '-'

/-- A character matched by the class `[-\s]`. -/
def isCollapseChar (c : Char) : Bool :=
  c == '-' || isPySpace c

/-- `re.sub(r"[-\s]+", "-", slug)`: every maximal run of hyphens and
whitespace is replaced by a single hyphen. -/
def collapseRuns : List Char → List Char
  | [] => []
  | c :: rest =>
    if isCollapseChar c then
      '-' :: collapseRuns (rest.dropWhile isCollapseChar)
    else
      c :: collapseRuns rest
  termination_by l => l.length
  decreasing_by
    · simp only [List.length_cons]
      have := (List.dropWhile_sublist (l := rest) (p := isCollapseChar)).length_le
      omega
    · simp only [List.length_cons]
      omega

/-- Python `str.strip(c)` for a single character: drop it at both ends. -/
def pyStripChar (c : Char) (l : List Char) : List Char :=
  ((l.dropWhile (· == c)).reverse.dropWhile (· == c)).reverse

/-- `ProjectAdmin.generate_slug` from `backend/admin.py`:
lowercase, strip characters outside `[\w\s-]`, collapse `[-\s]+` runs to a
single hyphen, then strip leading/trailing hyphens. -/
def generate_slug (title : List Char) : List Char :=
  pyStripChar '-' (collapseRuns ((title.map Char.toLower).filter keepSlugChar))

/-- A character allowed by the Project slug pattern class `[a-z0-9-]`. -/
def slugChar (c : Char) : Bool :=
  c.isLower || c.isDigit || c == '-'

/-- No two consecutive hyphens anywhere in the string. -/
def noDoubleDash : List Char → Bool
  | [] => true
  | [_] => true
  | a :: b :: rest => !(a == '-' && b == '-') && noDoubleDash (b :: rest)

/-- `re.match(r"^[a-z0-9-]+$", slug)` of `ProjectSchema.validate_slug_format`:
non-empty and every character in `[a-z0-9-]`. -/
def matchesSlugPattern (l : List Char) : Bool :=
  !l.isEmpty && l.all slugChar

/-! ### Dates and the duration derivation (`ExperienceSchema`) -/

/-- `datetime.date` as a record of Python integers. -/
structure PyDate where
  year : Int
  month : Int
  day : Int
deriving DecidableEq, Repr

/-- The field ranges `datetime.date` guarantees (month 1–12, day 1–31). -/
def PyDate.Valid (d : PyDate) : Prop :=
  1 ≤ d.month ∧ d.month ≤ 12 ∧ 1 ≤ d.day ∧ d.day ≤ 31

instance (d : PyDate) : Decidable d.Valid := by
  unfold PyDate.Valid; infer_instance

/-- Python `date` comparison `a <= b`: lexicographic on (year, month, day). -/
def pyDateLe (a b : PyDate) : Bool :=
  decide (a.year < b.year ∨ (a.year = b.year ∧
    (a.month < b.month ∨ (a.month = b.month ∧ a.day ≤ b.day))))

/-- Python `date` comparison `a < b`: lexicographic on (year, month, day). -/
def pyDateLt (a b : PyDate) : Bool :=
  decide (a.year < b.year ∨ (a.year = b.year ∧
    (a.month < b.month ∨ (a.month = b.month ∧ a.day < b.day))))

/-- The (years, months) pair computed inside
`ExperienceSchema.calculate_duration`: year and month differences, with a
borrow of one year when the month difference is negative. -/
def durationParts (start stop : PyDate) : Int × Int :=
  let years := stop.year - start.year
  let months := stop.month - start.month
  if months < 0 then (years - 1, months + 12) else (years, months)

/-- The `'s' if n != 1 else ''` pluralization of the duration f-strings. -/
def pluralS (n : Int) : String :=
  if n ≠ 1 then "s" else ""

/-- The `if years > 0 and months > 0: ... elif ... else` rendering chain of
`ExperienceSchema.calculate_duration`. -/
def renderDurationPython (p : Int × Int) : String :=
  if 0 < p.1 ∧ 0 < p.2 then
    toString p.1 ++ " yr" ++ pluralS p.1 ++ " " ++ toString p.2 ++ " mo" ++ pluralS p.2
  else if 0 < p.1 then
    toString p.1 ++ " yr" ++ pluralS p.1
  else if 0 < p.2 then
    toString p.2 ++ " mo" ++ pluralS p.2
  else
    "Less than 1 month"

/-- `ExperienceSchema.calculate_duration` from `backend/schemas.py`, as a
function of the start date and the effective end date (the stored end date,
or `date.today()` when it is null). -/
def calculate_duration (start stop : PyDate) : String :=
  renderDurationPython (durationParts start stop)

/-- The rendering chain exactly as the specification words it: by whether
each count is *nonzero*, with `yr`/`mo` pluralized exactly when the count
is not 1. -/
def renderDurationSpec (p : Int × Int) : String :=
  if p.1 ≠ 0 ∧ p.2 ≠ 0 then
    toString p.1 ++ " yr" ++ pluralS p.1 ++ " " ++ toString p.2 ++ " mo" ++ pluralS p.2
  else if p.1 ≠ 0 then
    toString p.1 ++ " yr" ++ pluralS p.1
  else if p.2 ≠ 0 then
    toString p.2 ++ " mo" ++ pluralS p.2
  else
    "Less than 1 month"

/-- The duration derivation exactly as the specification words it. -/
def durationSpecRender (start stop : PyDate) : String :=
  renderDurationSpec (durationParts start stop)

/-! ### Cross-field validators (`validates_schema` hooks)

A `validates_schema` hook that `raise`s stops at the first violated rule of
that hook; the raised message is the hook's entire contribution to the
error collection.  Each hook is embedded as a function returning
`Option String`: `some msg` is the raised error, `none` means the hook
passed. -/

/-- Truthy test `start_date and end_date and end_date <= start_date` of
`ExperienceSchema.validate_dates`. -/
def endBeforeStart : Option PyDate → Option PyDate → Bool
  | some s, some e => pyDateLe e s
  | _, _ => false

/-- Truthy test `start_date and start_date > date.today()` of
`ExperienceSchema.validate_dates`. -/
def startInFuture (today : PyDate) : Option PyDate → Bool
  | some s => pyDateLt today s
  | none => false

/-- `ExperienceSchema.validate_dates` from `backend/schemas.py`, with
`date.today()` passed explicitly: raises on the first violated rule. -/
def validate_dates (sd ed : Option PyDate) (today : PyDate) : Option String :=
  if endBeforeStart sd ed then some "End date must be after start date"
  else if startInFuture today sd then some "Start date cannot be in the future"
  else none

/-- The marshmallow `validate.Length(min=10, max=5000)` field rule on the
ContactMessage `message` field: checks the *raw* character count. -/
def messageRawLengthOk (m : List Char) : Bool :=
  10 ≤ m.length && m.length ≤ 5000

/-- `ContactMessageSchema.validate_message_content` from
`backend/schemas.py`: strip the message and reject when fewer than 10
characters remain. -/
def validate_message_content (m : List Char) : Option String :=
  if (pyStrip m).length < 10 then
    some "Message must be at least 10 characters long"
  else
    none

/-! ### Social link validation (`SiteMetaSchema.validate_social_links`) -/

/-- A social link object as validated by `SocialLinkSchema`. -/
structure SocialLink where
  platform : List Char
  url : List Char
  icon : List Char
deriving DecidableEq, Repr

/-- Python substring test `needle in hay`. -/
def pySubstring (needle hay : List Char) : Bool :=
  hay.tails.any (fun t => needle.isPrefixOf t)

/-- The per-link known-platform URL checks of
`SiteMetaSchema.validate_social_links`, applied to the already-lowercased
platform name; raises the first matching rule's message. -/
def checkKnownPlatformUrl (platform url : List Char) : Option String :=
  if platform == "github".data && !pySubstring "github.com".data url then
    some "GitHub URL must contain github.com"
  else if platform == "linkedin".data && !pySubstring "linkedin.com".data url then
    some "LinkedIn URL must contain linkedin.com"
  else if platform == "twitter".data &&
      !(pySubstring "twitter.com".data url || pySubstring "x.com".data url) then
    some "Twitter URL must contain twitter.com or x.com"
  else
    none

/-- The loop body of `SiteMetaSchema.validate_social_links`: walk the links
carrying the list of platforms seen so far (lowercased); raise on a repeated
platform, then on a failed known-platform URL check. -/
def socialLinksLoop (seen : List (List Char)) : List SocialLink → Option String
  | [] => none
  | link :: rest =>
    let p := pyLower link.platform
    if p ∈ seen then some "Duplicate social media platform found"
    else
      match checkKnownPlatformUrl p link.url with
      | some e => some e
      | none => socialLinksLoop (seen ++ [p]) rest

/-- `SiteMetaSchema.validate_social_links` from `backend/schemas.py`. -/
def validate_social_links (links : List SocialLink) : Option String :=
  socialLinksLoop [] links

/-- A social link whose (lowercased) platform is a known platform but whose
URL lacks the required domain substring. -/
def BadKnownUrl (l : SocialLink) : Prop :=
  (pyLower l.platform = "github".data ∧ pySubstring "github.com".data l.url = false) ∨
  (pyLower l.platform = "linkedin".data ∧ pySubstring "linkedin.com".data l.url = false) ∨
  (pyLower l.platform = "twitter".data ∧ pySubstring "twitter.com".data l.url = false ∧
    pySubstring "x.com".data l.url = false)

/-- A social link whose URL satisfies every known-platform domain rule. -/
def GoodKnownUrl (l : SocialLink) : Prop :=
  (pyLower l.platform = "github".data → pySubstring "github.com".data l.url = true) ∧
  (pyLower l.platform = "linkedin".data → pySubstring "linkedin.com".data l.url = true) ∧
  (pyLower l.platform = "twitter".data →
    (pySubstring "twitter.com".data l.url || pySubstring "x.com".data l.url) = true)

instance (l : SocialLink) : Decidable (GoodKnownUrl l) := by
  unfold GoodKnownUrl
  infer_instance

/-! ### Admin list-field transforms (`backend/admin.py`)

`on_model_change` parses the flat edit text into a list
(`[x.strip() for x in text.split(sep) if x.strip()]`); `on_form_prefill`
joins the stored list back into edit text (`", ".join` for `tech`,
`"\n".join` for `bullets`). -/

/-- The admin parse of a flat text field into a list: split on the
separator, strip each piece, keep the pieces that are non-empty after
stripping. -/
def adminParseList (sep : Char) (text : List Char) : List (List Char) :=
  ((pySplit sep text).map pyStrip).filter (· ≠ [])

/-- The admin join of a stored list back into edit text:
`joiner.join(entries)` — the joiner between consecutive entries. -/
def adminJoinList (joiner : List Char) : List (List Char) → List Char
  | [] => []
  | [x] => x
  | x :: y :: rest => x ++ joiner ++ adminJoinList joiner (y :: rest)

/-! ### Marshmallow list-field defaults (`fields.List(..., allow_none=True, missing=[])`)

`missing=[]` is marshmallow's *deserialization* (load) default, used when
the input key is absent; it plays no role when dumping.  Dumping an
attribute that is `None` through a `fields.List` serializes it as JSON
`null`; dumping a list serializes the list. -/

/-- The JSON values a list-typed field can produce. -/
inductive ListJson where
  | null : ListJson
  | arr (xs : List (List Char)) : ListJson
deriving DecidableEq, Repr

/-- Dump semantics of `fields.List(fields.Str(), allow_none=True, missing=[])`
for a stored attribute: `None` dumps as JSON `null`, a list dumps as a JSON
array. -/
def listFieldDump : Option (List (List Char)) → ListJson
  | none => ListJson.null
  | some xs => ListJson.arr xs

/-- Load semantics of the same field declaration for the field's JSON value
(`none` when the key is absent from the input): an absent key takes the
`missing=[]` default, `null` loads as `None` (allowed by `allow_none=True`),
an array loads as the list. -/
def listFieldLoad : Option ListJson → Option (List (List Char))
  | none => some []
  | some ListJson.null => none
  | some (ListJson.arr xs) => some xs

/-! ## Theorems -/

/-! ### Character-class bridges

The Python character classes are embedded through `Char.isUpper`,
`Char.isLower`, `Char.isDigit` and friends, which compare the underlying
`UInt32` code point.  These lemmas re-express everything as arithmetic on
`Char.toNat` so the classifications compose with `omega`. -/

theorem ofNat_le_uint32 (m : Nat) (hm : m < UInt32.size) (a : UInt32) :
    (UInt32.ofNat m ≤ a) ↔ m ≤ a.toNat := by
  rw [UInt32.le_def, BitVec.le_def, UInt32.toBitVec_eq_of_lt hm]
  exact Iff.rfl

theorem uint32_le_ofNat (m : Nat) (hm : m < UInt32.size) (a : UInt32) :
    (a ≤ UInt32.ofNat m) ↔ a.toNat ≤ m := by
  rw [UInt32.le_def, BitVec.le_def, UInt32.toBitVec_eq_of_lt hm]
  exact Iff.rfl

theorem char_toNat_inj (c d : Char) : c.toNat = d.toNat ↔ c = d := by
  constructor
  · intro h
    exact Char.eq_of_val_eq (UInt32.toNat.inj h)
  · intro h
    rw [h]

theorem char_isUpper_iff (c : Char) :
    (c.isUpper = true) ↔ 65 ≤ c.toNat ∧ c.toNat ≤ 90 := by
  unfold Char.isUpper
  simp only [Bool.and_eq_true, decide_eq_true_eq, ge_iff_le]
  rw [show (65 : UInt32) = UInt32.ofNat 65 from rfl,
    show (90 : UInt32) = UInt32.ofNat 90 from rfl]
  rw [ofNat_le_uint32 65 (by norm_num) c.val, uint32_le_ofNat 90 (by norm_num) c.val]
  exact Iff.rfl

theorem char_isLower_iff (c : Char) :
    (c.isLower = true) ↔ 97 ≤ c.toNat ∧ c.toNat ≤ 122 := by
  unfold Char.isLower
  simp only [Bool.and_eq_true, decide_eq_true_eq, ge_iff_le]
  rw [show (97 : UInt32) = UInt32.ofNat 97 from rfl,
    show (122 : UInt32) = UInt32.ofNat 122 from rfl]
  rw [ofNat_le_uint32 97 (by norm_num) c.val, uint32_le_ofNat 122 (by norm_num) c.val]
  exact Iff.rfl

theorem char_isDigit_iff (c : Char) :
    (c.isDigit = true) ↔ 48 ≤ c.toNat ∧ c.toNat ≤ 57 := by
  unfold Char.isDigit
  simp only [Bool.and_eq_true, decide_eq_true_eq, ge_iff_le]
  rw [show (48 : UInt32) = UInt32.ofNat 48 from rfl,
    show (57 : UInt32) = UInt32.ofNat 57 from rfl]
  rw [ofNat_le_uint32 48 (by norm_num) c.val, uint32_le_ofNat 57 (by norm_num) c.val]
  exact Iff.rfl

theorem char_val_toNat_ofNat (n : Nat) (h : n < 55296) :
    (Char.ofNat n).val.toNat = n := by
  have hv : n.isValidChar := Or.inl (by omega)
  unfold Char.ofNat
  rw [dif_pos hv]
  rfl

/-- The single master fact about `Char.toLower` on code points. -/
theorem char_toLower_toNat (c : Char) :
    (c.toLower).toNat =
      if 65 ≤ c.toNat ∧ c.toNat ≤ 90 then c.toNat + 32 else c.toNat := by
  rw [show c.toLower =
    (if 65 ≤ c.toNat ∧ c.toNat ≤ 90 then Char.ofNat (c.toNat + 32) else c) from rfl]
  split_ifs with h
  · exact char_val_toNat_ofNat _ (by omega)
  · rfl

theorem isPySpace_iff (c : Char) :
    (isPySpace c = true) ↔
      (c.toNat = 32 ∨ c.toNat = 9 ∨ c.toNat = 10 ∨ c.toNat = 13 ∨
        c.toNat = 11 ∨ c.toNat = 12) := by
  unfold isPySpace
  simp only [Bool.or_eq_true, beq_iff_eq]
  rw [← char_toNat_inj c ' ', ← char_toNat_inj c '\t', ← char_toNat_inj c '\n',
    ← char_toNat_inj c '\r', ← char_toNat_inj c '\x0b', ← char_toNat_inj c '\x0c']
  rw [show (' '.toNat) = 32 from rfl, show ('\t'.toNat) = 9 from rfl,
    show ('\n'.toNat) = 10 from rfl, show ('\r'.toNat) = 13 from rfl,
    show ('\x0b'.toNat) = 11 from rfl, show ('\x0c'.toNat) = 12 from rfl]
  omega

theorem isWordChar_iff (c : Char) :
    (isWordChar c = true) ↔
      ((65 ≤ c.toNat ∧ c.toNat ≤ 90) ∨ (97 ≤ c.toNat ∧ c.toNat ≤ 122) ∨
        (48 ≤ c.toNat ∧ c.toNat ≤ 57) ∨ c.toNat = 95) := by
  unfold isWordChar Char.isAlpha
  simp only [Bool.or_eq_true, beq_iff_eq, char_isUpper_iff, char_isLower_iff,
    char_isDigit_iff]
  rw [← char_toNat_inj c '_', show ('_'.toNat) = 95 from rfl]
  omega

theorem slugChar_iff (c : Char) :
    (slugChar c = true) ↔
      ((97 ≤ c.toNat ∧ c.toNat ≤ 122) ∨ (48 ≤ c.toNat ∧ c.toNat ≤ 57) ∨
        c.toNat = 45) := by
  unfold slugChar
  simp only [Bool.or_eq_true, beq_iff_eq, char_isLower_iff, char_isDigit_iff]
  rw [← char_toNat_inj c '-', show ('-'.toNat) = 45 from rfl]
  omega

theorem keepSlugChar_iff (c : Char) :
    (keepSlugChar c = true) ↔
      (isWordChar c = true ∨ isPySpace c = true ∨ c.toNat = 45) := by
  unfold keepSlugChar
  simp only [Bool.or_eq_true, beq_iff_eq]
  rw [← char_toNat_inj c '-', show ('-'.toNat) = 45 from rfl]
  tauto

theorem isCollapseChar_iff (c : Char) :
    (isCollapseChar c = true) ↔ (c.toNat = 45 ∨ isPySpace c = true) := by
  unfold isCollapseChar
  simp only [Bool.or_eq_true, beq_iff_eq]
  rw [← char_toNat_inj c '-', show ('-'.toNat) = 45 from rfl]

/-! ### Slug lemmas -/

theorem list_map_id_of {α : Type} (f : α → α) :
    ∀ l : List α, (∀ c ∈ l, f c = c) → l.map f = l
  | [], _ => rfl
  | a :: l, h => by
    rw [List.map_cons, h a (by simp),
      list_map_id_of f l (fun c hc => h c (by simp [hc]))]

theorem toLower_id_of_slugChar (c : Char) (h : slugChar c = true) :
    c.toLower = c := by
  rw [← char_toNat_inj, char_toLower_toNat]
  rw [slugChar_iff] at h
  rw [if_neg (by omega)]

theorem keep_of_slugChar (c : Char) (h : slugChar c = true) :
    keepSlugChar c = true := by
  rw [keepSlugChar_iff, isWordChar_iff, isPySpace_iff]
  rw [slugChar_iff] at h
  omega

theorem not_space_of_slugChar (c : Char) (h : slugChar c = true) :
    isPySpace c = false := by
  rw [slugChar_iff] at h
  cases hc : isPySpace c
  · rfl
  · rw [isPySpace_iff] at hc
    omega

theorem collapse_char_of_slugChar (c : Char) (h : slugChar c = true)
    (hc : isCollapseChar c = true) : c = '-' := by
  rw [← char_toNat_inj, show ('-'.toNat) = 45 from rfl]
  rw [slugChar_iff] at h
  rw [isCollapseChar_iff, isPySpace_iff] at hc
  omega

theorem not_collapse_of_slugChar_ne (c : Char) (h : slugChar c = true)
    (hne : c ≠ '-') : isCollapseChar c = false := by
  cases hc : isCollapseChar c
  · rfl
  · exact absurd (collapse_char_of_slugChar c h hc) hne

theorem collapseRuns_eq_self :
    ∀ l : List Char, (∀ c ∈ l, slugChar c = true) → noDoubleDash l = true →
      collapseRuns l = l := by
  intro l
  induction l with
  | nil => intro _ _; rw [collapseRuns]
  | cons c rest ih =>
    intro hchars hnd
    have hndtail : noDoubleDash rest = true := by
      cases rest with
      | nil => rfl
      | cons d rest' =>
        rw [noDoubleDash, Bool.and_eq_true] at hnd
        exact hnd.2
    rw [collapseRuns]
    have hc := hchars c (by simp)
    by_cases hcol : isCollapseChar c = true
    · have hdash : c = '-' := collapse_char_of_slugChar c hc hcol
      rw [if_pos hcol]
      have hdrop : rest.dropWhile isCollapseChar = rest := by
        cases rest with
        | nil => rfl
        | cons d rest' =>
          have hd : d ≠ '-' := by
            intro hd
            rw [noDoubleDash, Bool.and_eq_true] at hnd
            have h1 := hnd.1
            rw [hdash, hd] at h1
            simp at h1
          rw [List.dropWhile_cons,
            if_neg (by rw [not_collapse_of_slugChar_ne d (hchars d (by simp)) hd]; simp)]
      rw [hdrop, hdash, ih (fun a ha => hchars a (by simp [ha])) hndtail]
    · rw [if_neg hcol, ih (fun a ha => hchars a (by simp [ha])) hndtail]

theorem pyStripChar_eq_self (l : List Char) (h1 : l.head? ≠ some '-')
    (h2 : l.getLast? ≠ some '-') : pyStripChar '-' l = l := by
  unfold pyStripChar
  have d1 : l.dropWhile (· == '-') = l := by
    cases l with
    | nil => rfl
    | cons c rest =>
      rw [List.dropWhile_cons, if_neg]
      simp only [List.head?_cons, ne_eq, Option.some.injEq] at h1
      simp [h1]
  rw [d1]
  have d2 : l.reverse.dropWhile (· == '-') = l.reverse := by
    cases hr : l.reverse with
    | nil => rfl
    | cons c rest =>
      rw [List.dropWhile_cons, if_neg]
      have : l.reverse.head? = some c := by rw [hr]; rfl
      rw [List.head?_reverse] at this
      simp only [beq_iff_eq]
      intro hcd
      rw [hcd] at this
      exact h2 this
  rw [d2, List.reverse_reverse]

/-- C5 counterexample: `"a--b"` satisfies the Project slug pattern
`^[a-z0-9-]+$`, yet re-deriving a slug from it collapses the double hyphen:
the derivation is not idempotent on all pattern-valid slugs. -/
theorem generate_slug_not_idempotent_on_pattern :
    matchesSlugPattern "a--b".data = true ∧
    generate_slug "a--b".data = "a-b".data ∧
    "a-b".data ≠ "a--b".data := by
  refine ⟨by decide, ?_, by decide⟩
  simp [generate_slug, collapseRuns, pyStripChar, keepSlugChar, isWordChar,
    isPySpace, isCollapseChar, List.filter, List.dropWhile]

/-- C5 (amended): the title `"Hello, World! 2024"` derives the slug
`"hello-world-2024"`, and the derivation returns unchanged every
pattern-valid slug that has no consecutive hyphens and neither starts nor
ends with a hyphen (every slug the derivation itself produces is of this
shape). -/
theorem generate_slug_example_and_idempotent :
    generate_slug "Hello, World! 2024".data = "hello-world-2024".data ∧
    ∀ l : List Char, (∀ c ∈ l, slugChar c = true) →
      noDoubleDash l = true →
      l.head? ≠ some '-' → l.getLast? ≠ some '-' →
      generate_slug l = l := by
  constructor
  · simp [generate_slug, collapseRuns, pyStripChar, keepSlugChar, isWordChar,
      isPySpace, isCollapseChar, List.filter, List.dropWhile]
  intro l hchars hnd hh hl
  unfold generate_slug
  rw [list_map_id_of _ l (fun c hc => toLower_id_of_slugChar c (hchars c hc))]
  rw [List.filter_eq_self.mpr (fun c hc => keep_of_slugChar c (hchars c hc))]
  rw [collapseRuns_eq_self l hchars hnd]
  exact pyStripChar_eq_self l hh hl

/-- Witness for `generate_slug_example_and_idempotent` on a concrete slug. -/
theorem generate_slug_example_and_idempotent_witness :
    generate_slug "hello-world-2024".data = "hello-world-2024".data :=
  generate_slug_example_and_idempotent.2 "hello-world-2024".data
    (by decide) (by decide) (by decide) (by decide)

/-! ### Derived-slug pattern lemmas -/

theorem mem_dropWhile_of_not {α : Type} (p : α → Bool) :
    ∀ (l : List α) (a : α), a ∈ l → p a = false → a ∈ l.dropWhile p := by
  intro l
  induction l with
  | nil => intro a ha _; cases ha
  | cons c rest ih =>
    intro a ha hpa
    rw [List.dropWhile_cons]
    by_cases hc : p c = true
    · rw [if_pos hc]
      rcases List.mem_cons.mp ha with rfl | ha'
      · rw [hpa] at hc; cases hc
      · exact ih a ha' hpa
    · rw [if_neg hc]
      exact ha

theorem mem_of_mem_dropWhile {α : Type} (p : α → Bool) (l : List α) (a : α)
    (h : a ∈ l.dropWhile p) : a ∈ l :=
  (List.dropWhile_sublist (l := l) (p := p)).subset h

theorem collapseRuns_chars :
    ∀ l : List Char, ∀ c ∈ collapseRuns l,
      c = '-' ∨ (c ∈ l ∧ isCollapseChar c = false) := by
  intro l
  induction l using collapseRuns.induct with
  | case1 => intro c hc; rw [collapseRuns] at hc; cases hc
  | case2 c rest hcol ih =>
    intro a ha
    rw [collapseRuns, if_pos hcol] at ha
    rcases List.mem_cons.mp ha with rfl | ha'
    · exact Or.inl rfl
    · rcases ih a ha' with h | ⟨hmem, hc⟩
      · exact Or.inl h
      · exact Or.inr ⟨List.mem_cons_of_mem _ (mem_of_mem_dropWhile _ _ _ hmem), hc⟩
  | case3 c rest hcol ih =>
    intro a ha
    rw [collapseRuns, if_neg hcol] at ha
    rcases List.mem_cons.mp ha with rfl | ha'
    · exact Or.inr ⟨by simp, by simpa using hcol⟩
    · rcases ih a ha' with h | ⟨hmem, hc⟩
      · exact Or.inl h
      · exact Or.inr ⟨List.mem_cons_of_mem _ hmem, hc⟩

theorem mem_collapseRuns :
    ∀ (l : List Char) (a : Char), a ∈ l → isCollapseChar a = false →
      a ∈ collapseRuns l := by
  intro l
  induction l using collapseRuns.induct with
  | case1 => intro a ha _; cases ha
  | case2 c rest hcol ih =>
    intro a ha hna
    rw [collapseRuns, if_pos hcol]
    rcases List.mem_cons.mp ha with rfl | ha'
    · rw [hna] at hcol; cases hcol
    · exact List.mem_cons_of_mem _ (ih a (mem_dropWhile_of_not _ rest a ha' hna) hna)
  | case3 c rest hcol ih =>
    intro a ha hna
    rw [collapseRuns, if_neg hcol]
    rcases List.mem_cons.mp ha with rfl | ha'
    · exact List.mem_cons_self _ _
    · exact List.mem_cons_of_mem _ (ih a ha' hna)

theorem mem_pyStripChar (x : Char) (l : List Char) (a : Char) (ha : a ∈ l)
    (hne : a ≠ x) : a ∈ pyStripChar x l := by
  unfold pyStripChar
  have hpa : (a == x) = false := by simp [hne]
  exact List.mem_reverse.mpr (mem_dropWhile_of_not _ _ a
    (List.mem_reverse.mpr (mem_dropWhile_of_not _ l a ha hpa)) hpa)

theorem pyStripChar_subset (x : Char) (l : List Char) (a : Char)
    (ha : a ∈ pyStripChar x l) : a ∈ l := by
  unfold pyStripChar at ha
  exact mem_of_mem_dropWhile _ _ _
    (List.mem_reverse.mp (mem_of_mem_dropWhile _ _ _ (List.mem_reverse.mp ha)))

/-- `Char.toLower` never produces a code point in the uppercase range. -/
theorem toLower_not_upper_range (x : Char) :
    ¬(65 ≤ (x.toLower).toNat ∧ (x.toLower).toNat ≤ 90) := by
  rw [char_toLower_toNat]
  split_ifs with h <;> omega

/-- `Char.toLower` produces an underscore only from an underscore. -/
theorem toLower_eq_underscore (x : Char) (h : x.toLower = '_') : x = '_' := by
  have h9 : (x.toLower).toNat = 95 := by rw [h]; rfl
  rw [char_toLower_toNat] at h9
  rw [← char_toNat_inj, show ('_'.toNat) = 95 from rfl]
  by_cases h65 : 65 ≤ x.toNat ∧ x.toNat ≤ 90
  · rw [if_pos h65] at h9; omega
  · rw [if_neg h65] at h9; exact h9

/-- Lowercasing an ASCII alphanumeric character lands in `[a-z0-9]`. -/
theorem toLower_alnum (c : Char) (h : (c.isAlpha || c.isDigit) = true) :
    (97 ≤ (c.toLower).toNat ∧ (c.toLower).toNat ≤ 122) ∨
      (48 ≤ (c.toLower).toNat ∧ (c.toLower).toNat ≤ 57) := by
  rw [char_toLower_toNat]
  simp only [Bool.or_eq_true, Char.isAlpha, char_isUpper_iff, char_isLower_iff,
    char_isDigit_iff] at h
  split_ifs with h65 <;> omega

/-- C6 counterexample: the non-empty title `"_"` derives the slug `"_"`,
which fails the Project slug pattern `^[a-z0-9-]+$`. -/
theorem derived_slug_can_fail_pattern :
    "_".data ≠ [] ∧ generate_slug "_".data = "_".data ∧
    matchesSlugPattern "_".data = false := by
  refine ⟨by decide, ?_, by decide⟩
  simp [generate_slug, collapseRuns, pyStripChar, keepSlugChar, isWordChar,
    isPySpace, isCollapseChar, List.filter, List.dropWhile]

/-- C6 (amended): for every ASCII title that contains at least one
alphanumeric character and no underscore, the derived slug is non-empty and
matches `^[a-z0-9-]+$`, so such a project never fails the slug-pattern
validation on its derived slug. -/
theorem derived_slug_matches_pattern :
    ∀ title : List Char, (∀ c ∈ title, c.toNat < 128) →
      (∃ c ∈ title, (c.isAlpha || c.isDigit) = true) →
      '_' ∉ title →
      matchesSlugPattern (generate_slug title) = true := by
  intro title _ hex hund
  obtain ⟨w, hw, hwa⟩ := hex
  unfold matchesSlugPattern
  rw [Bool.and_eq_true]
  have hwl := toLower_alnum w hwa
  constructor
  · -- the lowered alphanumeric witness survives every stage
    have h1 : w.toLower ∈ title.map Char.toLower := List.mem_map_of_mem _ hw
    have hkeep : keepSlugChar w.toLower = true := by
      rw [keepSlugChar_iff, isWordChar_iff, isPySpace_iff]; omega
    have h2 : w.toLower ∈ (title.map Char.toLower).filter keepSlugChar :=
      List.mem_filter.mpr ⟨h1, hkeep⟩
    have hncol : isCollapseChar w.toLower = false := by
      cases hcc : isCollapseChar w.toLower
      · rfl
      · rw [isCollapseChar_iff, isPySpace_iff] at hcc; omega
    have h3 := mem_collapseRuns _ _ h2 hncol
    have hnd : w.toLower ≠ '-' := by
      intro hdash
      have h45 : (w.toLower).toNat = 45 := by rw [hdash]; rfl
      omega
    have h4 := mem_pyStripChar '-' _ _ h3 hnd
    have hne : generate_slug title ≠ [] := List.ne_nil_of_mem h4
    cases hemp : (generate_slug title).isEmpty
    · rfl
    · exact absurd (List.isEmpty_iff.mp hemp) hne
  · rw [List.all_eq_true]
    intro c hc
    have hc1 := pyStripChar_subset _ _ _ hc
    rcases collapseRuns_chars _ c hc1 with rfl | ⟨hmem, hncol⟩
    · decide
    · obtain ⟨hcm, hckeep⟩ := List.mem_filter.mp hmem
      obtain ⟨c', hc', hlc⟩ := List.mem_map.mp hcm
      rw [slugChar_iff]
      rw [keepSlugChar_iff, isWordChar_iff, isPySpace_iff] at hckeep
      have hnup : ¬(65 ≤ c.toNat ∧ c.toNat ≤ 90) := by
        rw [← hlc]; exact toLower_not_upper_range c'
      have hnsp : ¬(c.toNat = 32 ∨ c.toNat = 9 ∨ c.toNat = 10 ∨ c.toNat = 13 ∨
          c.toNat = 11 ∨ c.toNat = 12) := by
        intro hsp
        rw [show (isCollapseChar c = false) ↔ ¬(isCollapseChar c = true) from
          by simp] at hncol
        rw [isCollapseChar_iff, isPySpace_iff] at hncol
        exact hncol (Or.inr hsp)
      have hnus : c.toNat ≠ 95 := by
        intro h95
        apply hund
        have : c = '_' := by
          rw [← char_toNat_inj, show ('_'.toNat) = 95 from rfl]; exact h95
        rw [this] at hlc
        rw [← toLower_eq_underscore c' hlc]
        exact hc'
      omega

/-- Witness for `derived_slug_matches_pattern` at the spec's example title. -/
theorem derived_slug_matches_pattern_witness :
    matchesSlugPattern (generate_slug "My Project".data) = true :=
  derived_slug_matches_pattern "My Project".data (by decide) (by decide) (by decide)

/-! ### Admin list round-trip lemmas -/

theorem pySplit_no_sep (sep : Char) :
    ∀ a : List Char, sep ∉ a → pySplit sep a = [a] := by
  intro a
  induction a with
  | nil => intro _; rfl
  | cons c rest ih =>
    intro h
    have hcs : c ≠ sep := fun hc => h (by rw [hc]; exact List.mem_cons_self _ _)
    rw [pySplit, if_neg (by simpa using hcs),
      ih (fun hm => h (List.mem_cons_of_mem _ hm))]

theorem pySplit_append_sep (sep : Char) :
    ∀ (a rest : List Char), sep ∉ a →
      pySplit sep (a ++ sep :: rest) = a :: pySplit sep rest := by
  intro a
  induction a with
  | nil =>
    intro rest _
    rw [List.nil_append, pySplit, if_pos (by simp)]
  | cons c a' ih =>
    intro rest h
    have hcs : c ≠ sep := fun hc => h (by rw [hc]; exact List.mem_cons_self _ _)
    rw [List.cons_append, pySplit, if_neg (by simpa using hcs),
      ih rest (fun hm => h (List.mem_cons_of_mem _ hm))]

theorem dropWhile_eq_self_of_strip (s : List Char) (h : pyStrip s = s) :
    s.dropWhile isPySpace = s := by
  have h1 := List.dropWhile_sublist (l := s) (p := isPySpace)
  apply h1.eq_of_length
  have hl : (pyStrip s).length = s.length := by rw [h]
  unfold pyStrip at hl
  rw [List.length_reverse] at hl
  have h2 := (List.dropWhile_sublist (l := (s.dropWhile isPySpace).reverse)
    (p := isPySpace)).length_le
  rw [List.length_reverse] at h2
  have h3 := h1.length_le
  omega

theorem revDropWhile_eq_self_of_strip (s : List Char) (h : pyStrip s = s) :
    s.reverse.dropWhile isPySpace = s.reverse := by
  have hd := dropWhile_eq_self_of_strip s h
  unfold pyStrip at h
  rw [hd] at h
  have h2 := congrArg List.reverse h
  rw [List.reverse_reverse] at h2
  exact h2

theorem pyStrip_pad (ext s : List Char) (hext : ∀ c ∈ ext, isPySpace c = true)
    (h : pyStrip s = s) : pyStrip (ext ++ s) = s := by
  unfold pyStrip
  have hda : (ext ++ s).dropWhile isPySpace = s.dropWhile isPySpace := by
    induction ext with
    | nil => rfl
    | cons c ext' ih =>
      rw [List.cons_append, List.dropWhile_cons, if_pos (hext c (by simp))]
      exact ih (fun a ha => hext a (by simp [ha]))
  rw [hda, dropWhile_eq_self_of_strip s h, revDropWhile_eq_self_of_strip s h,
    List.reverse_reverse]

theorem adminJoinList_shift (j ext y : List Char) :
    ∀ rest, adminJoinList j ((ext ++ y) :: rest) =
      ext ++ adminJoinList j (y :: rest) := by
  intro rest
  cases rest with
  | nil => rw [adminJoinList, adminJoinList]
  | cons z rs =>
    rw [adminJoinList, adminJoinList]
    simp [List.append_assoc]

theorem pySplit_adminJoin (sep : Char) (ext : List Char) (hes : sep ∉ ext) :
    ∀ (xs : List (List Char)) (x : List Char), sep ∉ x → (∀ s ∈ xs, sep ∉ s) →
      pySplit sep (adminJoinList (sep :: ext) (x :: xs)) =
        x :: xs.map (fun s => ext ++ s) := by
  intro xs
  induction xs with
  | nil =>
    intro x hx _
    rw [adminJoinList, pySplit_no_sep sep x hx]
    rfl
  | cons y rest ih =>
    intro x hx hall
    rw [adminJoinList]
    have hassoc : x ++ (sep :: ext) ++ adminJoinList (sep :: ext) (y :: rest)
        = x ++ sep :: (ext ++ adminJoinList (sep :: ext) (y :: rest)) := by
      simp [List.append_assoc]
    rw [hassoc, pySplit_append_sep sep x _ hx,
      ← adminJoinList_shift (sep :: ext) ext y rest]
    have hey : sep ∉ ext ++ y := by
      intro hm
      rcases List.mem_append.mp hm with hm' | hm'
      · exact hes hm'
      · exact hall y (by simp) hm'
    rw [ih (ext ++ y) hey (fun s hs => hall s (by simp [hs]))]
    rw [List.map_cons]

theorem adminParse_adminJoin (sep : Char) (ext : List Char)
    (hext : ∀ c ∈ ext, isPySpace c = true) (hes : sep ∉ ext) :
    ∀ l : List (List Char), (∀ s ∈ l, pyStrip s = s ∧ s ≠ [] ∧ sep ∉ s) →
      adminParseList sep (adminJoinList (sep :: ext) l) = l := by
  intro l hl
  cases l with
  | nil => rw [adminJoinList]; rfl
  | cons x xs =>
    unfold adminParseList
    rw [pySplit_adminJoin sep ext hes xs x (hl x (by simp)).2.2
      (fun s hs => (hl s (by simp [hs])).2.2)]
    rw [List.map_cons, (hl x (by simp)).1, List.map_map]
    have hmapid : xs.map (pyStrip ∘ fun s => ext ++ s) = xs :=
      list_map_id_of _ xs (fun s hs => pyStrip_pad ext s hext (hl s (by simp [hs])).1)
    rw [hmapid]
    rw [List.filter_eq_self.mpr ?_]
    intro a ha
    simpa using (hl a ha).2.1

theorem map_strip_filter_comm :
    ∀ L : List (List Char),
      ((L.map pyStrip).filter (fun s => s ≠ [])) =
        (L.filter (fun s => pyStrip s ≠ [])).map pyStrip := by
  intro L
  induction L with
  | nil => rfl
  | cons a L ih =>
    rw [List.map_cons, List.filter_cons, List.filter_cons]
    by_cases h : pyStrip a = []
    · rw [if_neg (by simp [h]), if_neg (by simp [h])]
      exact ih
    · rw [if_pos (by simp [h]), if_pos (by simp [h]), List.map_cons, ih]

/-- C4 counterexample: the entry `" x"` is non-empty after trimming and
contains no comma, yet joining `[" x"]` to edit text and parsing it back
yields `["x"]`, not the original list — the parse re-trims each entry. -/
theorem admin_roundtrip_not_identity_on_untrimmed :
    pyStrip " x".data ≠ [] ∧ (',' ∉ " x".data) ∧
    adminParseList ',' (adminJoinList ", ".data [" x".data]) = ["x".data] ∧
    ["x".data] ≠ [" x".data] := by
  decide

/-- C4 (amended): for lists of entries that are trim-invariant, non-empty
and separator-free, join-then-parse is the identity for both the
comma-joined `tech` field and the newline-joined `bullets` field; and on
arbitrary edit text the parse keeps, in order and trimmed, exactly the
entries that are non-empty after trimming. -/
theorem admin_list_roundtrip :
    (∀ l : List (List Char), (∀ s ∈ l, pyStrip s = s ∧ s ≠ [] ∧ ',' ∉ s) →
      adminParseList ',' (adminJoinList ", ".data l) = l) ∧
    (∀ l : List (List Char), (∀ s ∈ l, pyStrip s = s ∧ s ≠ [] ∧ '\n' ∉ s) →
      adminParseList '\n' (adminJoinList "\n".data l) = l) ∧
    (∀ (sep : Char) (t : List Char),
      adminParseList sep t =
        ((pySplit sep t).filter (fun s => pyStrip s ≠ [])).map pyStrip) := by
  refine ⟨?_, ?_, ?_⟩
  · intro l hl
    rw [show (", ".data : List Char) = ',' :: [' '] from rfl]
    exact adminParse_adminJoin ',' [' '] (by decide) (by decide) l hl
  · intro l hl
    rw [show ("\n".data : List Char) = '\n' :: [] from rfl]
    exact adminParse_adminJoin '\n' [] (by decide) (by decide) l hl
  · intro sep t
    unfold adminParseList
    exact map_strip_filter_comm (pySplit sep t)

/-- Witness for `admin_list_roundtrip` at a concrete tech list. -/
theorem admin_list_roundtrip_witness :
    adminParseList ',' (adminJoinList ", ".data ["react".data, "node".data]) =
      ["react".data, "node".data] :=
  admin_list_roundtrip.1 ["react".data, "node".data] (by decide)

/-- For dates in order (with the calendar ranges of `datetime.date`), the
(years, months) pair of the duration computation is non-negative with
months at most 11. -/
theorem durationParts_bounds (s e : PyDate) (hs : s.Valid) (he : e.Valid)
    (hle : pyDateLe s e = true) :
    0 ≤ (durationParts s e).1 ∧ 0 ≤ (durationParts s e).2 ∧
      (durationParts s e).2 ≤ 11 := by
  obtain ⟨hs1, hs2, _, _⟩ := hs
  obtain ⟨he1, he2, _, _⟩ := he
  simp only [pyDateLe, decide_eq_true_eq] at hle
  unfold durationParts
  dsimp only
  split_ifs with h <;> refine ⟨?_, ?_, ?_⟩ <;> dsimp only <;> omega

/-- When years and months are non-negative, the Python rendering chain
(`> 0` tests) agrees with the specification's rendering (nonzero tests). -/
theorem renderDuration_eq_spec (p : Int × Int) (h1 : 0 ≤ p.1) (h2 : 0 ≤ p.2) :
    renderDurationPython p = renderDurationSpec p := by
  obtain ⟨y, m⟩ := p
  unfold renderDurationPython renderDurationSpec
  dsimp only at h1 h2 ⊢
  split_ifs <;> first | rfl | omega

/-- C1: for every Experience record (start date `s`, effective end date `e`
with `s ≤ e`, both genuine calendar dates), `calculate_duration` computes
the (years, months) pair by year/month difference with a 12-month borrow
and renders it exactly as the specification describes (counts rendered when
nonzero, `yr`/`mo` pluralized exactly when the count is not 1, literal
`"Less than 1 month"` otherwise); in particular start 2022-03-01 with
effective end 2024-03-01 yields `"2 yrs"`, and with end 2022-06-01 yields
`"3 mos"`. -/
theorem duration_matches_spec_rendering :
    (∀ s e : PyDate, s.Valid → e.Valid → pyDateLe s e = true →
      calculate_duration s e = durationSpecRender s e) ∧
    calculate_duration ⟨2022, 3, 1⟩ ⟨2024, 3, 1⟩ = "2 yrs" ∧
    calculate_duration ⟨2022, 3, 1⟩ ⟨2022, 6, 1⟩ = "3 mos" := by
  refine ⟨?_, by decide, by decide⟩
  intro s e hs he hle
  obtain ⟨h1, h2, h3⟩ := durationParts_bounds s e hs he hle
  exact renderDuration_eq_spec _ h1 h2

/-- Witness for `duration_matches_spec_rendering` at a concrete record. -/
theorem duration_matches_spec_rendering_witness :
    calculate_duration ⟨2022, 3, 1⟩ ⟨2023, 8, 15⟩ =
      durationSpecRender ⟨2022, 3, 1⟩ ⟨2023, 8, 15⟩ :=
  duration_matches_spec_rendering.1 ⟨2022, 3, 1⟩ ⟨2023, 8, 15⟩
    (by decide) (by decide) (by decide)

/-- C10: for all genuine calendar dates `s ≤ e`, the (years, months) pair
inside the duration calculation satisfies `years ≥ 0` and
`0 ≤ months ≤ 11`, so no rendered count is negative; and the computation is
total on every pair of dates. -/
theorem durationParts_nonneg_and_total :
    (∀ s e : PyDate, s.Valid → e.Valid → pyDateLe s e = true →
      0 ≤ (durationParts s e).1 ∧ 0 ≤ (durationParts s e).2 ∧
        (durationParts s e).2 ≤ 11) ∧
    (∀ s e : PyDate, ∃ y m : Int, durationParts s e = (y, m) ∧
      ∃ r : String, calculate_duration s e = r) := by
  refine ⟨durationParts_bounds, ?_⟩
  intro s e
  exact ⟨(durationParts s e).1, (durationParts s e).2, rfl, calculate_duration s e, rfl⟩

/-- Witness for `durationParts_nonneg_and_total` at a concrete record. -/
theorem durationParts_nonneg_and_total_witness :
    0 ≤ (durationParts ⟨2022, 3, 1⟩ ⟨2024, 2, 29⟩).1 ∧
      0 ≤ (durationParts ⟨2022, 3, 1⟩ ⟨2024, 2, 29⟩).2 ∧
      (durationParts ⟨2022, 3, 1⟩ ⟨2024, 2, 29⟩).2 ≤ 11 :=
  durationParts_nonneg_and_total.1 ⟨2022, 3, 1⟩ ⟨2024, 2, 29⟩
    (by decide) (by decide) (by decide)

/-- C2 counterexample: an Experience whose end date is not after its start
date *and* whose start date is in the future violates two cross-field rules
at once, yet the reported error collection holds only the first rule's
message — the future-start violation never appears.  (Concretely:
start 2100-01-01, end 2050-01-01, evaluated on 2024-01-01.) -/
theorem validate_dates_drops_second_violation :
    endBeforeStart (some ⟨2100, 1, 1⟩) (some ⟨2050, 1, 1⟩) = true ∧
    startInFuture ⟨2024, 1, 1⟩ (some ⟨2100, 1, 1⟩) = true ∧
    validate_dates (some ⟨2100, 1, 1⟩) (some ⟨2050, 1, 1⟩) ⟨2024, 1, 1⟩ =
      some "End date must be after start date" ∧
    "Start date cannot be in the future" ∉
      (validate_dates (some ⟨2100, 1, 1⟩) (some ⟨2050, 1, 1⟩) ⟨2024, 1, 1⟩).toList := by
  decide

/-- C2 (amended): a cross-field `validates_schema` hook stops at its first
violated rule — whenever the end date is not strictly after the start date,
`validate_dates` reports exactly that one violation and the future-start
rule is never evaluated. -/
theorem validate_dates_raises_first_violation :
    ∀ (sd ed : Option PyDate) (today : PyDate), endBeforeStart sd ed = true →
      validate_dates sd ed today = some "End date must be after start date" := by
  intro sd ed today h
  unfold validate_dates
  simp [h]

/-- Witness for `validate_dates_raises_first_violation`. -/
theorem validate_dates_raises_first_violation_witness :
    validate_dates (some ⟨2100, 1, 1⟩) (some ⟨2050, 1, 1⟩) ⟨2024, 1, 1⟩ =
      some "End date must be after start date" :=
  validate_dates_raises_first_violation (some ⟨2100, 1, 1⟩) (some ⟨2050, 1, 1⟩)
    ⟨2024, 1, 1⟩ (by decide)

/-- C7 counterexample: dumping an entity whose optional list-typed field is
`None` in storage produces JSON `null`, not the empty sequence `[]` — the
`missing=[]` declaration is a load-time default only. -/
theorem listFieldDump_null_not_empty :
    listFieldDump none = ListJson.null ∧ ListJson.null ≠ ListJson.arr [] := by
  decide

/-- C7 (amended): an optional list-typed field *absent from load input*
defaults to the empty list `[]`, but a `None` stored value *serializes* as
JSON `null`, and a stored list serializes as that list. -/
theorem listField_load_default_and_dump :
    listFieldLoad none = some [] ∧ listFieldDump none = ListJson.null ∧
      ∀ xs, listFieldDump (some xs) = ListJson.arr xs :=
  ⟨rfl, rfl, fun _ => rfl⟩

/-- C8: a ContactMessage whose message has raw length at least 10 (and at
most 5000) but strips to fewer than 10 characters passes the raw
`Length(min=10, max=5000)` field rule yet is rejected by the distinct
`validate_message_content` trimmed-length rule; in particular
`"   short   "` (raw length 11, trimmed length 5) is rejected. -/
theorem trimmed_message_rejected :
    (∀ m : List Char, 10 ≤ m.length → m.length ≤ 5000 →
      (pyStrip m).length < 10 →
      messageRawLengthOk m = true ∧
      validate_message_content m = some "Message must be at least 10 characters long") ∧
    messageRawLengthOk "   short   ".data = true ∧
    validate_message_content "   short   ".data =
      some "Message must be at least 10 characters long" := by
  refine ⟨?_, by decide, by decide⟩
  intro m h1 h2 h3
  constructor
  · unfold messageRawLengthOk
    simp only [Bool.and_eq_true, decide_eq_true_eq]
    exact ⟨h1, h2⟩
  · unfold validate_message_content
    simp [h3]

/-- Witness for `trimmed_message_rejected` at the concrete message. -/
theorem trimmed_message_rejected_witness :
    messageRawLengthOk "   short   ".data = true ∧
      validate_message_content "   short   ".data =
        some "Message must be at least 10 characters long" :=
  trimmed_message_rejected.1 "   short   ".data (by decide) (by decide) (by decide)

/-! ### Lemmas about the social-links loop -/

theorem checkKnownPlatformUrl_of_bad (l : SocialLink) (hb : BadKnownUrl l) :
    checkKnownPlatformUrl (pyLower l.platform) l.url ≠ none := by
  intro h
  unfold checkKnownPlatformUrl at h
  rcases hb with ⟨hp, hu⟩ | ⟨hp, hu⟩ | ⟨hp, hu1, hu2⟩
  · rw [hp] at h
    rw [show (("github".data : List Char) == "github".data) = true from by decide,
      hu] at h
    simp at h
  · rw [hp] at h
    rw [show (("linkedin".data : List Char) == "github".data) = false from by decide,
      show (("linkedin".data : List Char) == "linkedin".data) = true from by decide,
      hu] at h
    simp at h
  · rw [hp] at h
    rw [show (("twitter".data : List Char) == "github".data) = false from by decide,
      show (("twitter".data : List Char) == "linkedin".data) = false from by decide,
      show (("twitter".data : List Char) == "twitter".data) = true from by decide,
      hu1, hu2] at h
    simp at h

theorem checkKnownPlatformUrl_of_good (l : SocialLink) (hg : GoodKnownUrl l) :
    checkKnownPlatformUrl (pyLower l.platform) l.url = none := by
  obtain ⟨h1, h2, h3⟩ := hg
  unfold checkKnownPlatformUrl
  split_ifs with c1 c2 c3
  · simp only [Bool.and_eq_true, beq_iff_eq, Bool.not_eq_true'] at c1
    rw [h1 c1.1] at c1
    cases c1.2
  · simp only [Bool.and_eq_true, beq_iff_eq, Bool.not_eq_true'] at c2
    rw [h2 c2.1] at c2
    cases c2.2
  · simp only [Bool.and_eq_true, beq_iff_eq, Bool.not_eq_true'] at c3
    rw [h3 c3.1] at c3
    cases c3.2
  · rfl

/-- If the loop accepts, every link passed the known-platform URL check. -/
theorem socialLinksLoop_none_checks :
    ∀ (ls : List SocialLink) (seen : List (List Char)),
      socialLinksLoop seen ls = none →
      ∀ l ∈ ls, checkKnownPlatformUrl (pyLower l.platform) l.url = none := by
  intro ls
  induction ls with
  | nil => intro seen _ l hl; cases hl
  | cons x rest ih =>
    intro seen h l hl
    rw [socialLinksLoop] at h
    by_cases hp : pyLower x.platform ∈ seen
    · simp [hp] at h
    · simp only [if_neg hp] at h
      cases hc : checkKnownPlatformUrl (pyLower x.platform) x.url with
      | some e => rw [hc] at h; cases h
      | none =>
        rw [hc] at h
        rcases List.mem_cons.mp hl with rfl | hl'
        · exact hc
        · exact ih _ h l hl'

/-- If the loop accepts, the lowercased platforms avoid `seen` and repeat
no value. -/
theorem socialLinksLoop_none_nodup :
    ∀ (ls : List SocialLink) (seen : List (List Char)),
      socialLinksLoop seen ls = none →
      (∀ q ∈ ls.map (fun l => pyLower l.platform), q ∉ seen) ∧
        (ls.map (fun l => pyLower l.platform)).Nodup := by
  intro ls
  induction ls with
  | nil => intro seen _; exact ⟨by simp, by simp⟩
  | cons x rest ih =>
    intro seen h
    rw [socialLinksLoop] at h
    by_cases hp : pyLower x.platform ∈ seen
    · simp [hp] at h
    · simp only [if_neg hp] at h
      cases hc : checkKnownPlatformUrl (pyLower x.platform) x.url with
      | some e => rw [hc] at h; cases h
      | none =>
        rw [hc] at h
        obtain ⟨ih1, ih2⟩ := ih _ h
        constructor
        · intro q hq
          simp only [List.map_cons] at hq
          rcases List.mem_cons.mp hq with rfl | hq'
          · exact hp
          · intro hqs
            exact ih1 q hq' (List.mem_append_left _ hqs)
        · simp only [List.map_cons]
          refine List.nodup_cons.mpr ⟨?_, ih2⟩
          intro hmem
          exact ih1 _ hmem (List.mem_append_right _ (List.mem_singleton.mpr rfl))

/-- If the lowercased platforms avoid `seen` and repeat no value, and every
link passes the known-platform URL check, the loop accepts. -/
theorem socialLinksLoop_none_of :
    ∀ (ls : List SocialLink) (seen : List (List Char)),
      (∀ q ∈ ls.map (fun l => pyLower l.platform), q ∉ seen) →
      (ls.map (fun l => pyLower l.platform)).Nodup →
      (∀ l ∈ ls, checkKnownPlatformUrl (pyLower l.platform) l.url = none) →
      socialLinksLoop seen ls = none := by
  intro ls
  induction ls with
  | nil => intro seen _ _ _; rfl
  | cons x rest ih =>
    intro seen h1 h2 h3
    have hp : pyLower x.platform ∉ seen := h1 _ (by simp)
    rw [socialLinksLoop]
    simp only [if_neg hp]
    rw [h3 x (by simp)]
    refine ih _ ?_ (List.nodup_cons.mp h2).2 (fun l hl => h3 l (by simp [hl]))
    intro q hq hmem
    rcases List.mem_append.mp hmem with hs | hs
    · exact h1 q (by simp [hq]) hs
    · rw [List.mem_singleton.mp hs] at hq
      exact (List.nodup_cons.mp h2).1 hq

/-- C9: `validate_social_links` rejects any list in which two entries share
a lowercased platform name, rejects any list containing a known-platform
entry (github / linkedin / twitter, matched case-insensitively) whose URL
lacks the required domain substring, and accepts any list whose lowercased
platforms are pairwise distinct and whose known-platform URLs all contain
their domain. -/
theorem social_links_validation_rules :
    (∀ links : List SocialLink,
      ¬ (links.map (fun l => pyLower l.platform)).Nodup →
      (validate_social_links links).isSome = true) ∧
    (∀ links : List SocialLink, ∀ l ∈ links, BadKnownUrl l →
      (validate_social_links links).isSome = true) ∧
    (∀ links : List SocialLink,
      (links.map (fun l => pyLower l.platform)).Nodup →
      (∀ l ∈ links, GoodKnownUrl l) →
      validate_social_links links = none) := by
  refine ⟨?_, ?_, ?_⟩
  · intro links hnd
    cases hv : validate_social_links links with
    | none => exact absurd (socialLinksLoop_none_nodup links [] hv).2 hnd
    | some e => rfl
  · intro links l hl hb
    cases hv : validate_social_links links with
    | none =>
      exact absurd (socialLinksLoop_none_checks links [] hv l hl)
        (checkKnownPlatformUrl_of_bad l hb)
    | some e => rfl
  · intro links hnd hg
    exact socialLinksLoop_none_of links [] (by simp) hnd
      (fun l hl => checkKnownPlatformUrl_of_good l (hg l hl))

/-- Witness for `social_links_validation_rules`: the spec's concrete
duplicate (`"GitHub"`/`"github"`) is rejected, and a distinct well-formed
list is accepted. -/
theorem social_links_validation_rules_witness :
    (validate_social_links
      [⟨"GitHub".data, "https://github.com/u".data, "github".data⟩,
       ⟨"github".data, "https://github.com/v".data, "github".data⟩]).isSome = true ∧
    validate_social_links
      [⟨"GitHub".data, "https://github.com/u".data, "github".data⟩,
       ⟨"Twitter".data, "https://x.com/u".data, "twitter".data⟩] = none :=
  ⟨social_links_validation_rules.1 _ (by decide),
   social_links_validation_rules.2.2 _ (by decide) (by decide)⟩

/-! ### Field-transform round-trip lemmas -/

/-- The master fact about `Char.toUpper` on code points. -/
theorem char_toUpper_toNat (c : Char) :
    (c.toUpper).toNat =
      if 97 ≤ c.toNat ∧ c.toNat ≤ 122 then c.toNat - 32 else c.toNat := by
  rw [show c.toUpper =
    (if 97 ≤ c.toNat ∧ c.toNat ≤ 122 then Char.ofNat (c.toNat - 32) else c) from rfl]
  split_ifs with h
  · exact char_val_toNat_ofNat _ (by omega)
  · rfl

theorem toLower_id_of_lower (c : Char) (h : c.isLower = true) :
    c.toLower = c := by
  rw [← char_toNat_inj, char_toLower_toNat]
  rw [char_isLower_iff] at h
  rw [if_neg (by omega)]

theorem isUpper_toUpper (c : Char) (h : c.isLower = true) :
    (c.toUpper).isUpper = true := by
  rw [char_isLower_iff] at h
  rw [char_isUpper_iff, char_toUpper_toNat,
    if_pos (show 97 ≤ c.toNat ∧ c.toNat ≤ 122 from h)]
  omega

theorem toLower_toUpper (c : Char) (h : c.isLower = true) :
    (c.toUpper).toLower = c := by
  rw [char_isLower_iff] at h
  have hu : (c.toUpper).toNat = c.toNat - 32 := by
    rw [char_toUpper_toNat, if_pos (show 97 ≤ c.toNat ∧ c.toNat ≤ 122 from h)]
  rw [← char_toNat_inj, char_toLower_toNat, hu,
    if_pos (show 65 ≤ c.toNat - 32 ∧ c.toNat - 32 ≤ 90 by omega)]
  omega

theorem not_lower_of_upper (c : Char) (h : c.isUpper = true) :
    c.isLower = false := by
  rw [char_isUpper_iff] at h
  cases hc : c.isLower
  · rfl
  · rw [char_isLower_iff] at hc
    omega

theorem not_upper_of_lower (c : Char) (h : c.isLower = true) :
    c.isUpper = false := by
  rw [char_isLower_iff] at h
  cases hc : c.isUpper
  · rfl
  · rw [char_isUpper_iff] at hc
    omega

theorem lower_bne_newline (c : Char) (h : c.isLower = true) :
    (c != '\n') = true := by
  rw [char_isLower_iff] at h
  simp only [bne_iff_ne, ne_eq]
  intro hc
  rw [hc] at h
  rw [show ('\n'.toNat) = 10 from rfl] at h
  omega

theorem map_toLower_id_of_lower (w : List Char) (h : ∀ c ∈ w, c.isLower = true) :
    w.map Char.toLower = w :=
  list_map_id_of _ w (fun c hc => toLower_id_of_lower c (h c hc))

/-- `pyCapitalize` on a lowercase word: uppercase head, tail verbatim. -/
theorem pyCapitalize_lower (h : Char) (t : List Char)
    (ht : ∀ c ∈ t, c.isLower = true) :
    pyCapitalize (h :: t) = h.toUpper :: t := by
  rw [pyCapitalize, map_toLower_id_of_lower t ht]

theorem takeWhile_append_all (p : Char → Bool) :
    ∀ (m rest : List Char), (∀ c ∈ m, p c = true) →
      (rest = [] ∨ ∃ r rs, rest = r :: rs ∧ p r = false) →
      (m ++ rest).takeWhile p = m ∧ (m ++ rest).dropWhile p = rest := by
  intro m
  induction m with
  | nil =>
    intro rest _ hr
    rcases hr with rfl | ⟨r, rs, rfl, hpr⟩
    · exact ⟨rfl, rfl⟩
    · rw [List.nil_append, List.takeWhile_cons, List.dropWhile_cons,
        if_neg (by simp [hpr]), if_neg (by simp [hpr])]
      exact ⟨rfl, rfl⟩
  | cons c m' ih =>
    intro rest hm hr
    have hc := hm c (by simp)
    rw [List.cons_append, List.takeWhile_cons, List.dropWhile_cons,
      if_pos hc, if_pos hc]
    obtain ⟨h1, h2⟩ := ih rest (fun a ha => hm a (by simp [ha])) hr
    rw [h1, h2]
    exact ⟨rfl, rfl⟩

/-- `sub1` is the identity on all-lowercase strings (no `[A-Z]` to match). -/
theorem sub1_all_lower :
    ∀ l : List Char, (∀ c ∈ l, c.isLower = true) → sub1 l = l := by
  intro l
  induction l using sub1.induct with
  | case1 => intro _; rw [sub1]
  | case2 c => intro _; rw [sub1]
  | case3 c d rest hcond ih =>
    intro hl
    simp only [Bool.and_eq_true] at hcond
    exact absurd hcond.1.2 (by rw [not_upper_of_lower d (hl d (by simp))]; simp)
  | case4 c d rest hcond ih =>
    intro hl
    rw [sub1.eq_def]
    simp only []
    rw [if_neg hcond, ih (fun a ha => hl a (by simp [ha]))]

/-- `sub1` through a lowercase prefix up to an uppercase block: the match
fires at the last character of the prefix and consumes the block's
lowercase run. -/
theorem sub1_lower_block :
    ∀ l : List Char, l ≠ [] → (∀ c ∈ l, c.isLower = true) →
      ∀ (U : Char) (m rest : List Char), U.isUpper = true → m ≠ [] →
        (∀ c ∈ m, c.isLower = true) →
        (rest = [] ∨ ∃ r rs, rest = r :: rs ∧ r.isUpper = true) →
        sub1 (l ++ U :: m ++ rest) = l ++ '_' :: U :: m ++ sub1 rest := by
  intro l
  induction l with
  | nil => intro h; exact absurd rfl h
  | cons a l' ih =>
    intro _ hl U m rest hU hm hml hrest
    have hrlow : rest = [] ∨ ∃ r rs, rest = r :: rs ∧ Char.isLower r = false := by
      rcases hrest with rfl | ⟨r, rs, rfl, hr⟩
      · exact Or.inl rfl
      · exact Or.inr ⟨r, rs, rfl, not_lower_of_upper r hr⟩
    cases l' with
    | nil =>
      cases m with
      | nil => exact absurd rfl hm
      | cons mh mt =>
        have hshape : ([a] ++ U :: (mh :: mt) ++ rest) =
            a :: U :: (mh :: (mt ++ rest)) := by simp
        rw [hshape, sub1]
        rw [if_pos ?cond]
        case cond =>
          rw [lower_bne_newline a (hl a (by simp)), hU, hml mh (by simp)]
          rfl
        have hta := takeWhile_append_all Char.isLower (mh :: mt) rest hml hrlow
        rw [show mh :: (mt ++ rest) = (mh :: mt) ++ rest from rfl, hta.1, hta.2]
        simp
    | cons b l'' =>
      have hb := hl b (by simp)
      have hshape : ((a :: b :: l'') ++ U :: m ++ rest) =
          a :: b :: (l'' ++ U :: m ++ rest) := by simp
      rw [hshape, sub1.eq_def]
      simp only []
      rw [if_neg (by rw [not_upper_of_lower b hb]; simp)]
      have := ih (by simp) (fun c hc => hl c (by simp [hc])) U m rest hU hm hml hrest
      rw [show b :: (l'' ++ U :: m ++ rest) = (b :: l'') ++ U :: m ++ rest from rfl,
        this]
      simp

/-- A non-empty block sequence starts with an uppercase letter. -/
theorem blocks_head_shape :
    ∀ vs : List (List Char), (∀ v ∈ vs, LowerWord v) →
      ((vs.map pyCapitalize).flatten = [] ∨
        ∃ r rs, (vs.map pyCapitalize).flatten = r :: rs ∧ r.isUpper = true) := by
  intro vs hvs
  cases vs with
  | nil => exact Or.inl rfl
  | cons v vs' =>
    obtain ⟨hvne, hvl⟩ := hvs v (by simp)
    cases v with
    | nil => exact absurd rfl hvne
    | cons h t =>
      refine Or.inr ⟨h.toUpper, t.map Char.toLower ++ (vs'.map pyCapitalize).flatten,
        ?_, isUpper_toUpper h (hvl h (by simp))⟩
      simp [pyCapitalize]

/-- `sub1` on a block sequence: an underscore lands before the first block
of each consecutive pair of blocks. -/
theorem sub1_blocks :
    ∀ vs : List (List Char), (∀ v ∈ vs, LowerWord v ∧ 2 ≤ v.length) →
      sub1 ((vs.map pyCapitalize).flatten) = altBlocks vs := by
  intro vs
  induction vs using altBlocks.induct with
  | case1 => intro _; rw [altBlocks]; rw [show ((List.map pyCapitalize []).flatten :
      List Char) = [] from rfl, sub1]
  | case2 v =>
    intro hv
    obtain ⟨⟨hvne, hvl⟩, hv2⟩ := hv v (by simp)
    cases v with
    | nil => exact absurd rfl hvne
    | cons h t =>
      cases t with
      | nil => simp at hv2
      | cons t1 t' =>
        have hlt : ∀ c ∈ t1 :: t', c.isLower = true :=
          fun c hc => hvl c (by simp [hc])
        rw [altBlocks, show ((List.map pyCapitalize [h :: t1 :: t']).flatten :
            List Char) = pyCapitalize (h :: t1 :: t') from by simp]
        rw [pyCapitalize_lower h (t1 :: t') hlt, sub1.eq_def]
        simp only []
        rw [if_neg (by rw [not_upper_of_lower t1 (hlt t1 (by simp))]; simp)]
        rw [sub1_all_lower (t1 :: t') hlt]
  | case3 v w rest ih =>
    intro hv
    obtain ⟨⟨hvne, hvl⟩, hv2⟩ := hv v (by simp)
    obtain ⟨⟨hwne, hwl⟩, hw2⟩ := hv w (by simp)
    cases v with
    | nil => exact absurd rfl hvne
    | cons vh vt =>
      cases vt with
      | nil => simp at hv2
      | cons v1 v' =>
        cases w with
        | nil => exact absurd rfl hwne
        | cons wh wt =>
          cases wt with
          | nil => simp at hw2
          | cons w1 w' =>
            have hvt : ∀ c ∈ v1 :: v', c.isLower = true :=
              fun c hc => hvl c (by simp [hc])
            have hwt : ∀ c ∈ w1 :: w', c.isLower = true :=
              fun c hc => hwl c (by simp [hc])
            have hflat : ((List.map pyCapitalize ((vh :: v1 :: v') :: (wh :: w1 :: w') :: rest)).flatten :
                List Char) = pyCapitalize (vh :: v1 :: v') ++
                  (pyCapitalize (wh :: w1 :: w') ++ (rest.map pyCapitalize).flatten) := by
              simp
            rw [hflat, pyCapitalize_lower vh (v1 :: v') hvt,
              pyCapitalize_lower wh (w1 :: w') hwt]
            rw [show (vh.toUpper :: v1 :: v') ++
                (wh.toUpper :: (w1 :: w') ++ (rest.map pyCapitalize).flatten) =
                vh.toUpper :: v1 :: (v' ++
                  wh.toUpper :: (w1 :: w') ++ (rest.map pyCapitalize).flatten) from by simp,
              sub1.eq_def]
            simp only []
            rw [if_neg (by rw [not_upper_of_lower v1 (hvt v1 (by simp))]; simp)]
            rw [show v1 :: (v' ++
                wh.toUpper :: (w1 :: w') ++ (rest.map pyCapitalize).flatten) =
                (v1 :: v') ++ wh.toUpper :: (w1 :: w') ++
                  (rest.map pyCapitalize).flatten from by simp]
            rw [sub1_lower_block (v1 :: v') (by simp) hvt wh.toUpper (w1 :: w')
              ((rest.map pyCapitalize).flatten)
              (isUpper_toUpper wh (hwl wh (by simp))) (by simp) hwt
              (blocks_head_shape rest (fun u hu => (hv u (by simp [hu])).1))]
            rw [ih (fun u hu => hv u (by simp [hu]))]
            rw [altBlocks, pyCapitalize_lower vh (v1 :: v') hvt,
              pyCapitalize_lower wh (w1 :: w') hwt]
            simp

theorem not_digit_of_upper (c : Char) (h : c.isUpper = true) :
    c.isDigit = false := by
  rw [char_isUpper_iff] at h
  cases hc : c.isDigit
  · rfl
  · rw [char_isDigit_iff] at hc
    omega

/-- `sub2` is the identity on all-lowercase strings. -/
theorem sub2_all_lower :
    ∀ l : List Char, (∀ c ∈ l, c.isLower = true) → sub2 l = l := by
  intro l
  induction l using sub2.induct with
  | case1 => intro _; rfl
  | case2 c => intro _; rfl
  | case3 c d rest hcond ih =>
    intro hl
    simp only [Bool.and_eq_true] at hcond
    exact absurd hcond.2 (by rw [not_upper_of_lower d (hl d (by simp))]; simp)
  | case4 c d rest hcond ih =>
    intro hl
    rw [sub2.eq_3, if_neg hcond, ih (fun a ha => hl a (by simp [ha]))]

/-- `sub2` passes over a lowercase prefix followed by an underscore. -/
theorem sub2_lower_underscore :
    ∀ l : List Char, (∀ c ∈ l, c.isLower = true) →
      ∀ rest, sub2 (l ++ '_' :: rest) = l ++ '_' :: sub2 rest := by
  intro l
  induction l with
  | nil =>
    intro _ rest
    cases rest with
    | nil => rfl
    | cons r rs =>
      rw [List.nil_append, sub2.eq_3]
      rw [if_neg (by rw [show (('_'.isLower || '_'.isDigit) : Bool) = false from
        (by decide)]; simp)]
      rfl
  | cons a l' ih =>
    intro hl rest
    rw [List.cons_append]
    cases l' with
    | nil =>
      rw [List.nil_append, sub2.eq_3]
      rw [if_neg (by rw [show (('_'.isUpper) : Bool) = false from (by decide)]; simp)]
      have := ih (by intro c hc; cases hc) rest
      rw [List.nil_append] at this
      rw [this]
      simp
    | cons b l'' =>
      rw [show (b :: l'') ++ '_' :: rest = b :: (l'' ++ '_' :: rest) from rfl,
        sub2.eq_3]
      rw [if_neg (by rw [not_upper_of_lower b (hl b (by simp))]; simp)]
      have := ih (fun c hc => hl c (by simp [hc])) rest
      rw [show (b :: l'') ++ '_' :: rest = b :: (l'' ++ '_' :: rest) from rfl] at this
      rw [this]
      rfl

/-- `sub2` fires exactly at a lowercase-to-uppercase boundary. -/
theorem sub2_lower_upper :
    ∀ m : List Char, m ≠ [] → (∀ c ∈ m, c.isLower = true) →
      ∀ (U : Char) (rest : List Char), U.isUpper = true →
        sub2 (m ++ U :: rest) = m ++ '_' :: U :: sub2 rest := by
  intro m
  induction m with
  | nil => intro h; exact absurd rfl h
  | cons a m' ih =>
    intro _ hm U rest hU
    cases m' with
    | nil =>
      rw [List.cons_append, List.nil_append, sub2.eq_3]
      rw [if_pos (by rw [hm a (by simp), hU]; rfl)]
      rfl
    | cons b m'' =>
      rw [show (a :: b :: m'') ++ U :: rest = a :: (b :: (m'' ++ U :: rest)) from
        by simp, sub2.eq_3]
      rw [if_neg (by rw [not_upper_of_lower b (hm b (by simp))]; simp)]
      have := ih (by simp) (fun c hc => hm c (by simp [hc])) U rest hU
      rw [show (b :: m'') ++ U :: rest = b :: (m'' ++ U :: rest) from rfl] at this
      rw [this]
      rfl

/-- `sub2` on a capitalized block followed by the `sub1` output shape:
every block boundary receives an underscore. -/
theorem sub2_blockSeq :
    ∀ vs : List (List Char), (∀ u ∈ vs, LowerWord u ∧ 2 ≤ u.length) →
      ∀ v : List Char, LowerWord v → 2 ≤ v.length →
        sub2 (pyCapitalize v ++ altBlocks vs) =
          pyCapitalize v ++ underscoreBlocks vs := by
  intro vs
  induction vs using altBlocks.induct with
  | case1 =>
    intro _ v ⟨hvne, hvl⟩ hv2
    rw [altBlocks, underscoreBlocks, List.append_nil]
    cases v with
    | nil => exact absurd rfl hvne
    | cons h t =>
      cases t with
      | nil => simp at hv2
      | cons t1 t' =>
        have hlt : ∀ c ∈ t1 :: t', c.isLower = true :=
          fun c hc => hvl c (by simp [hc])
        rw [pyCapitalize_lower h (t1 :: t') hlt, sub2.eq_3]
        rw [if_neg (by rw [not_upper_of_lower t1 (hlt t1 (by simp))]; simp)]
        rw [sub2_all_lower (t1 :: t') hlt]
  | case2 w =>
    intro hu v ⟨hvne, hvl⟩ hv2
    obtain ⟨⟨hwne, hwl⟩, hw2⟩ := hu w (by simp)
    rw [altBlocks, underscoreBlocks, underscoreBlocks, List.append_nil]
    cases v with
    | nil => exact absurd rfl hvne
    | cons h t =>
      cases t with
      | nil => simp at hv2
      | cons t1 t' =>
        have hlt : ∀ c ∈ t1 :: t', c.isLower = true :=
          fun c hc => hvl c (by simp [hc])
        cases w with
        | nil => exact absurd rfl hwne
        | cons g s =>
          have hls : ∀ c ∈ s, c.isLower = true :=
            fun c hc => hwl c (by simp [hc])
          rw [pyCapitalize_lower h (t1 :: t') hlt, pyCapitalize_lower g s hls]
          rw [show (h.toUpper :: t1 :: t') ++ g.toUpper :: s =
            h.toUpper :: t1 :: (t' ++ g.toUpper :: s) from by simp, sub2.eq_3]
          rw [if_neg (by rw [not_upper_of_lower t1 (hlt t1 (by simp))]; simp)]
          rw [show t1 :: (t' ++ g.toUpper :: s) = (t1 :: t') ++ g.toUpper :: s from
            rfl]
          rw [sub2_lower_upper (t1 :: t') (by simp) hlt g.toUpper s
            (isUpper_toUpper g (hwl g (by simp)))]
          rw [sub2_all_lower s hls]
          simp
  | case3 w w' rest ih =>
    intro hu v ⟨hvne, hvl⟩ hv2
    obtain ⟨⟨hwne, hwl⟩, hw2⟩ := hu w (by simp)
    rw [altBlocks, underscoreBlocks]
    cases v with
    | nil => exact absurd rfl hvne
    | cons h t =>
      cases t with
      | nil => simp at hv2
      | cons t1 t' =>
        have hlt : ∀ c ∈ t1 :: t', c.isLower = true :=
          fun c hc => hvl c (by simp [hc])
        cases w with
        | nil => exact absurd rfl hwne
        | cons g s =>
          have hls : ∀ c ∈ s, c.isLower = true :=
            fun c hc => hwl c (by simp [hc])
          rw [pyCapitalize_lower h (t1 :: t') hlt, pyCapitalize_lower g s hls]
          rw [show (h.toUpper :: t1 :: t') ++
              ((g.toUpper :: s) ++ '_' :: pyCapitalize w' ++ altBlocks rest) =
              h.toUpper :: t1 :: (t' ++ g.toUpper ::
                (s ++ '_' :: (pyCapitalize w' ++ altBlocks rest))) from by simp,
            sub2.eq_3]
          rw [if_neg (by rw [not_upper_of_lower t1 (hlt t1 (by simp))]; simp)]
          rw [show t1 :: (t' ++ g.toUpper ::
              (s ++ '_' :: (pyCapitalize w' ++ altBlocks rest))) =
              (t1 :: t') ++ g.toUpper ::
                (s ++ '_' :: (pyCapitalize w' ++ altBlocks rest)) from rfl]
          rw [sub2_lower_upper (t1 :: t') (by simp) hlt g.toUpper _
            (isUpper_toUpper g (hwl g (by simp)))]
          rw [sub2_lower_underscore s hls (pyCapitalize w' ++ altBlocks rest)]
          rw [ih (fun u hum => hu u (by simp [hum])) w'
            (hu w' (by simp)).1 (hu w' (by simp)).2]
          rw [show underscoreBlocks (w' :: rest) =
            '_' :: pyCapitalize w' ++ underscoreBlocks rest from rfl]
          simp

/-- `snakeIdent` is the `"_".join` of the words. -/
theorem snakeIdent_eq_adminJoin :
    ∀ l : List (List Char), snakeIdent l = adminJoinList ['_'] l := by
  intro l
  induction l using snakeIdent.induct with
  | case1 => rfl
  | case2 w => rfl
  | case3 w v rest ih =>
    rw [snakeIdent, adminJoinList, ih]
    simp

theorem underscore_not_mem (w : List Char) (hw : LowerWord w) : '_' ∉ w := by
  intro hm
  have h := hw.2 '_' hm
  rw [show (('_'.isLower) : Bool) = false from (by decide)] at h
  cases h

/-- `snake_to_camel` carries the underscore-joined identifier to the
camel-cased identifier. -/
theorem snake_to_camel_snakeIdent :
    ∀ ws : List (List Char), ws ≠ [] → (∀ w ∈ ws, LowerWord w) →
      snake_to_camel (snakeIdent ws) = camelIdent ws := by
  intro ws hne hlw
  cases ws with
  | nil => exact absurd rfl hne
  | cons x xs =>
    unfold snake_to_camel
    rw [snakeIdent_eq_adminJoin]
    rw [pySplit_adminJoin '_' [] (by simp) xs x
      (underscore_not_mem x (hlw x (by simp)))
      (fun s hs => underscore_not_mem s (hlw s (by simp [hs])))]
    simp [camelIdent]

theorem snakeIdent_cons :
    ∀ (vs : List (List Char)) (w : List Char),
      snakeIdent (w :: vs) = w ++ (vs.map (fun u => '_' :: u)).flatten := by
  intro vs
  induction vs with
  | nil => intro w; simp [snakeIdent]
  | cons v vs' ih =>
    intro w
    rw [snakeIdent, ih v]
    simp

theorem pyLower_underscoreBlocks :
    ∀ vs : List (List Char), (∀ u ∈ vs, LowerWord u) →
      pyLower (underscoreBlocks vs) = (vs.map (fun u => '_' :: u)).flatten := by
  intro vs
  induction vs with
  | nil => intro _; rfl
  | cons u vs' ih =>
    intro hvs
    obtain ⟨hne, hlu⟩ := hvs u (by simp)
    cases u with
    | nil => exact absurd rfl hne
    | cons h t =>
      have hlt : ∀ c ∈ t, c.isLower = true := fun c hc => hlu c (by simp [hc])
      rw [underscoreBlocks, pyCapitalize_lower h t hlt]
      unfold pyLower
      rw [show ('_' :: h.toUpper :: t) ++ underscoreBlocks vs' =
        '_' :: h.toUpper :: (t ++ underscoreBlocks vs') from by simp]
      rw [List.map_cons, List.map_cons, List.map_append]
      rw [show ('_'.toLower) = '_' from (by decide),
        toLower_toUpper h (hlu h (by simp)), map_toLower_id_of_lower t hlt]
      unfold pyLower at ih
      rw [ih (fun a ha => hvs a (by simp [ha]))]
      simp

/-- `camel_to_snake` carries the camel-cased identifier back to the
underscore-joined identifier when every word after the first has at least
two letters. -/
theorem camel_to_snake_camelIdent :
    ∀ (w0 : List Char) (vs : List (List Char)), LowerWord w0 →
      (∀ v ∈ vs, LowerWord v ∧ 2 ≤ v.length) →
      camel_to_snake (camelIdent (w0 :: vs)) = snakeIdent (w0 :: vs) := by
  intro w0 vs hw0 hvs
  obtain ⟨hw0ne, hw0l⟩ := hw0
  cases vs with
  | nil =>
    rw [show camelIdent [w0] = w0 from by simp [camelIdent]]
    unfold camel_to_snake
    rw [sub1_all_lower w0 hw0l, sub2_all_lower w0 hw0l]
    unfold pyLower
    rw [map_toLower_id_of_lower w0 hw0l, snakeIdent]
  | cons v vs' =>
    obtain ⟨⟨hvne, hvl⟩, hv2⟩ := hvs v (by simp)
    cases v with
    | nil => exact absurd rfl hvne
    | cons vh vt =>
      cases vt with
      | nil => simp at hv2
      | cons v1 v'' =>
        unfold camel_to_snake
        have hvt : ∀ c ∈ v1 :: v'', c.isLower = true :=
          fun c hc => hvl c (by simp [hc])
        rw [show camelIdent (w0 :: (vh :: v1 :: v'') :: vs') =
          w0 ++ pyCapitalize (vh :: v1 :: v'') ++
            (vs'.map pyCapitalize).flatten from by simp [camelIdent]]
        rw [pyCapitalize_lower vh (v1 :: v'') hvt]
        rw [show w0 ++ (vh.toUpper :: v1 :: v'') ++ (vs'.map pyCapitalize).flatten =
          w0 ++ vh.toUpper :: (v1 :: v'') ++ (vs'.map pyCapitalize).flatten from
          by simp]
        rw [sub1_lower_block w0 hw0ne hw0l vh.toUpper (v1 :: v'')
          ((vs'.map pyCapitalize).flatten) (isUpper_toUpper vh (hvl vh (by simp)))
          (by simp) hvt (blocks_head_shape vs' (fun u hu => (hvs u (by simp [hu])).1))]
        rw [sub1_blocks vs' (fun u hu => hvs u (by simp [hu]))]
        rw [show w0 ++ '_' :: vh.toUpper :: (v1 :: v'') ++ altBlocks vs' =
          w0 ++ '_' :: ((vh.toUpper :: v1 :: v'') ++ altBlocks vs') from by simp]
        rw [sub2_lower_underscore w0 hw0l ((vh.toUpper :: v1 :: v'') ++ altBlocks vs')]
        rw [← pyCapitalize_lower vh (v1 :: v'') hvt]
        rw [sub2_blockSeq vs' (fun u hu => hvs u (by simp [hu])) (vh :: v1 :: v'')
          ⟨by simp, hvl⟩ (by simp)]
        rw [show w0 ++ '_' :: (pyCapitalize (vh :: v1 :: v'') ++ underscoreBlocks vs') =
          w0 ++ underscoreBlocks ((vh :: v1 :: v'') :: vs') from by
            rw [underscoreBlocks]; simp]
        unfold pyLower
        rw [List.map_append, map_toLower_id_of_lower w0 hw0l]
        have hub := pyLower_underscoreBlocks ((vh :: v1 :: v'') :: vs')
          (fun u hu => by
            rcases List.mem_cons.mp hu with rfl | hu'
            · exact ⟨by simp, hvl⟩
            · exact (hvs u (by simp [hu'])).1)
        unfold pyLower at hub
        rw [hub, snakeIdent_cons ((vh :: v1 :: v'') :: vs') w0]

/-- C3 counterexample: `"a_b_c"` is an underscore-joined sequence of
lowercase words, but the transforms do not invert on it — it camelizes to
`"aBC"`, which snake-cases back to `"a_bc"`. -/
theorem field_transforms_not_inverses_in_general :
    snakeIdent ["a".data, "b".data, "c".data] = "a_b_c".data ∧
    (∀ w ∈ [("a".data : List Char), "b".data, "c".data], LowerWord w) ∧
    snake_to_camel "a_b_c".data = "aBC".data ∧
    camel_to_snake "aBC".data = "a_bc".data ∧
    "a_bc".data ≠ "a_b_c".data := by
  refine ⟨by decide, by decide, by decide, ?_, by decide⟩
  simp [camel_to_snake, sub1, sub2, pyLower]

/-- C3 (amended): on every identifier built from non-empty lowercase words
in which each word after the first has at least two letters — which covers
every entity field name of the system — the field-name transforms are
mutual inverses: `camel_to_snake` undoes `snake_to_camel`, and
`snake_to_camel` undoes `camel_to_snake` on the camelized form. -/
theorem field_transforms_mutual_inverses :
    ∀ ws : List (List Char), ws ≠ [] → (∀ w ∈ ws, LowerWord w) →
      (∀ w ∈ ws.tail, 2 ≤ w.length) →
      camel_to_snake (snake_to_camel (snakeIdent ws)) = snakeIdent ws ∧
      snake_to_camel (camel_to_snake (snake_to_camel (snakeIdent ws))) =
        snake_to_camel (snakeIdent ws) := by
  intro ws hne hlw h2
  cases ws with
  | nil => exact absurd rfl hne
  | cons w0 vs =>
    have hcam := snake_to_camel_snakeIdent (w0 :: vs) (by simp) hlw
    have hcs : camel_to_snake (camelIdent (w0 :: vs)) = snakeIdent (w0 :: vs) :=
      camel_to_snake_camelIdent w0 vs (hlw w0 (by simp))
        (fun v hv => ⟨hlw v (by simp [hv]), h2 v (by simpa using hv)⟩)
    constructor
    · rw [hcam, hcs]
    · rw [hcam, hcs, hcam]

/-- Witness for `field_transforms_mutual_inverses` at the field name
`order_index`. -/
theorem field_transforms_mutual_inverses_witness :
    camel_to_snake (snake_to_camel (snakeIdent ["order".data, "index".data])) =
      snakeIdent ["order".data, "index".data] :=
  (field_transforms_mutual_inverses ["order".data, "index".data]
    (by decide) (by decide) (by decide)).1

end Portfolio
